import Mathlib

/-!
# Verification of the AO3 feed-tracker ingestion pipeline

A shallow embedding of the core pipeline of the `Ao3Librarian` repository:
feed parsing (`src/feed_parser.py`), the polling orchestrator
(`src/bot.py`, `poll_feeds`), the delivery-deduplication store operations
(`src/database.py`), and tag-id URL handling (`src/commands/track.py`).

Strings from the Python source are modelled as `List Char`.  Python regular
expressions used by the source are translated into explicit scanners with the
same leftmost-match semantics.  Timestamps (`datetime`) are modelled as `Nat`;
an entry's missing timestamp is `none`, and the `datetime.min` sentinel used
by the sort key is the bottom element of the key order (`Option Nat` with
`none` below every `some`).
-/

/-- Characters of a Python string. -/
abbrev Chars := List Char

/-- Python `\s` / `str.strip` whitespace (ASCII fragment). -/
def isPySpace (c : Char) : Bool :=
  c = ' ' || c = '\t' || c = '\n' || c = '\r' || c = '\x0b' || c = '\x0c'

/-- Python `str.strip()`: drop whitespace from both ends. -/
def pyStrip (l : Chars) : Chars :=
  ((l.dropWhile isPySpace).reverse.dropWhile isPySpace).reverse

/-- Strip a literal pattern from the front of a string, returning the
remainder when the pattern is present (used to model literal parts of the
source's regular expressions). -/
def stripPfx : Chars → Chars → Option Chars
  | [], s => some s
  | _ :: _, [] => none
  | p :: ps, c :: cs => if c = p then stripPfx ps cs else none

/-- Does `pat` occur as a contiguous substring?  Models Python's substring
search used to reason about which regex labels are present in a fragment. -/
def containsSub (pat : Chars) : Chars → Bool
  | [] => pat.isEmpty
  | c :: cs => (stripPfx pat (c :: cs)).isSome || containsSub pat cs

/-- `re.search` semantics: try the anchored matcher at every position, left
to right, returning the first success. -/
def searchFirst (f : Chars → Option α) : Chars → Option α
  | [] => f []
  | c :: cs => (f (c :: cs)).orElse fun _ => searchFirst f cs

/-- A parsed feed entry (`FeedParser.parse_entry` output), restricted to the
fields the ordering / detection / filtering pipeline reads: `id`, the two
optional timestamps, and the extracted `tag_names`. -/
structure Entry where
  id : Chars
  updated : Option Nat
  published : Option Nat
  tag_names : List Chars
deriving DecidableEq, Repr

/-- Python `x.get("updated") or x.get("published")`: first present
timestamp, `none` when both are missing (the `datetime.min` sentinel). -/
def sortKey (e : Entry) : Option Nat :=
  e.updated.orElse fun _ => e.published

/-- Order on sort keys: the sentinel (`none`, i.e. `datetime.min`) is below
every real timestamp. -/
def keyLe : Option Nat → Option Nat → Bool
  | none, _ => true
  | some _, none => false
  | some a, some b => a ≤ b

/-- `a` may come before `b` in the newest-first order:
descending comparison of sort keys. -/
def entryLe (a b : Entry) : Bool := keyLe (sortKey b) (sortKey a)

/-- Python `sorted(entries, key=..., reverse=True)`: a stable descending
sort (modelled by `List.mergeSort`, which is stable). -/
def sortDesc (l : List Entry) : List Entry := l.mergeSort entryLe

/-- `FeedParser.get_new_entries` (src/feed_parser.py:200-218).  A falsy
marker (`None` or the empty string) means "no previous entry"; a marker not
found in the list falls back to the whole (sorted) list; otherwise the
strict prefix before the first entry carrying the marker id is returned. -/
def get_new_entries (entries : List Entry) (last_entry_id : Option Chars) :
    List Entry :=
  match last_entry_id with
  | none => sortDesc entries
  | some lid =>
    if lid = [] then sortDesc entries
    else
      match entries.findIdx? (fun e => e.id == lid) with
      | none => sortDesc entries
      | some k => entries.take k

/-- Python `str.lower()` on our character lists. -/
def lowerCh (l : Chars) : Chars := l.map Char.toLower

/-- `FeedParser.filter_entries_by_tags` (src/feed_parser.py:179-197).
Keeps entries whose case-folded tag names do not meet the case-folded
excluded set; an empty exclusion set short-circuits to the input. -/
def filter_entries_by_tags (entries : List Entry) (excluded : List Chars) :
    List Entry :=
  if excluded = [] then entries
  else
    let excludedLower := excluded.map lowerCh
    entries.filter fun e =>
      (e.tag_names.map lowerCh).all fun t => !excludedLower.contains t

/-- The `notified_entries` table: rows `(feed_channel_id, entry_id)`,
subject to a `UNIQUE(feed_channel_id, entry_id)` constraint. -/
abbrev NotifDb := List (Nat × Chars)

/-- `Database.is_entry_notified` (src/database.py:345-352): row existence. -/
def is_entry_notified (db : NotifDb) (sid : Nat) (eid : Chars) : Bool :=
  db.contains (sid, eid)

/-- `Database.record_notification` (src/database.py:354-364): `INSERT`,
with the unique-constraint violation caught and ignored. -/
def record_notification (db : NotifDb) (sid : Nat) (eid : Chars) : NotifDb :=
  if db.contains (sid, eid) then db else db ++ [(sid, eid)]

/-- A subscription row as returned by
`Database.get_subscriptions_with_excluded_tags`. -/
structure Subscription where
  subscription_id : Nat
  channel_id : Nat
  excluded_tags : List Chars
deriving DecidableEq, Repr

/-- Inner loop of `AO3TrackerBot.poll_feeds` over one subscription's
filtered entries (src/bot.py:318-330): skip already-notified entries,
attempt delivery (`sendOk` is the external notifier's reported outcome),
and record only successful deliveries. -/
def processEntriesForSub (sendOk : Nat → Chars → Bool) (sid : Nat)
    (es : List Entry) (db : NotifDb) : NotifDb :=
  es.foldl
    (fun db e =>
      if is_entry_notified db sid e.id then db
      else if sendOk sid e.id then record_notification db sid e.id
      else db)
    db

/-- Loop of `AO3TrackerBot.poll_feeds` over a feed's subscriptions
(src/bot.py:304-330). -/
def processSubs (sendOk : Nat → Chars → Bool) (subs : List Subscription)
    (newEntries : List Entry) (db : NotifDb) : NotifDb :=
  subs.foldl
    (fun db sub =>
      processEntriesForSub sendOk sub.subscription_id
        (filter_entries_by_tags newEntries sub.excluded_tags) db)
    db

/-- Outcome of one per-feed iteration of `poll_feeds`:
the feed row's marker and poll timestamp after the iteration
(`last_updated = none` means the row was not touched), and the
notified-entries table. -/
structure FeedPollResult where
  last_entry_id : Option Chars
  last_updated : Option Nat
  notifDb : NotifDb
deriving DecidableEq, Repr

/-- One successful per-feed iteration of `AO3TrackerBot.poll_feeds`
(src/bot.py:244-341), after a successful fetch returning `entries`:
sort newest-first, detect new entries against the stored marker, fan out
over subscriptions, and update the feed metadata
(`db.update_feed_metadata(feed_id, datetime.utcnow(), entries[0]["id"])`)
on every branch that reaches it. -/
def pollFeedOnce (sendOk : Nat → Chars → Bool) (now : Nat)
    (entries : List Entry) (subs : List Subscription)
    (marker : Option Chars) (db : NotifDb) : FeedPollResult :=
  if entries = [] then ⟨marker, none, db⟩
  else
    let sortedEntries := sortDesc entries
    let newEntries := get_new_entries sortedEntries marker
    if newEntries = [] then
      ⟨(sortedEntries.head?).map Entry.id, some now, db⟩
    else if subs = [] then
      ⟨(sortedEntries.head?).map Entry.id, some now, db⟩
    else
      ⟨(sortedEntries.head?).map Entry.id, some now,
        processSubs sendOk subs newEntries db⟩

/-- Value of a decimal digit string, as Python's `int()` on a `\d+` match. -/
def digitsToNat (ds : Chars) : Nat :=
  ds.foldl (fun n c => n * 10 + (c.toNat - 48)) 0

/-- Anchored matcher for `Words:\s*(\d+)` (src/feed_parser.py:97),
returning the captured number. -/
def matchWordsAt (s : Chars) : Option Nat :=
  match stripPfx "Words:".toList s with
  | none => none
  | some rest =>
    let ds := (rest.dropWhile isPySpace).takeWhile Char.isDigit
    if ds = [] then none else some (digitsToNat ds)

/-- Anchored matcher for `Chapters:\s*(\d+)/(\d+|\?)`
(src/feed_parser.py:102), returning the whole match (`group(0)`), which is
what the source stores. -/
def matchChaptersAt (s : Chars) : Option Chars :=
  match stripPfx "Chapters:".toList s with
  | none => none
  | some rest =>
    let ws := rest.takeWhile isPySpace
    let r1 := rest.dropWhile isPySpace
    let d1 := r1.takeWhile Char.isDigit
    if d1 = [] then none
    else
      match r1.drop d1.length with
      | '/' :: r2 =>
        let d2 := r2.takeWhile Char.isDigit
        if d2 = [] then
          match r2 with
          | '?' :: _ => some ("Chapters:".toList ++ ws ++ d1 ++ [ '/', '?'])
          | _ => none
        else some ("Chapters:".toList ++ ws ++ d1 ++ '/' :: d2)
      | _ => none

/-- Anchored matcher for `Language:\s*([^<]+)` (src/feed_parser.py:107),
returning the capture.  When everything after the greedy `\s*` starts with
`<` (or the fragment ends), the regex engine backtracks one whitespace
character into the `[^<]+` group, so the capture is that single whitespace
character. -/
def matchLanguageAt (s : Chars) : Option Chars :=
  match stripPfx "Language:".toList s with
  | none => none
  | some rest =>
    let ws := rest.takeWhile isPySpace
    let r1 := rest.dropWhile isPySpace
    match r1 with
    | c :: _ =>
      if c = '<' then if ws = [] then none else some [ws.getLastD ' ']
      else some (r1.takeWhile fun c => c != '<')
    | [] => if ws = [] then none else some [ws.getLastD ' ']

/-- Anchored matcher for `Rating:\s*<a[^>]*>([^<]+)</a>`
(src/feed_parser.py:112), returning the hyperlink's inner text. -/
def matchRatingAt (s : Chars) : Option Chars :=
  match stripPfx "Rating:".toList s with
  | none => none
  | some rest =>
    match stripPfx "<a".toList (rest.dropWhile isPySpace) with
    | none => none
    | some r2 =>
      match r2.dropWhile (fun c => c != '>') with
      | '>' :: r3 =>
        let inner := r3.takeWhile fun c => c != '<'
        if inner = [] then none
        else
          match stripPfx "</a>".toList (r3.drop inner.length) with
          | some _ => some inner
          | none => none
      | _ => none

/-- Lazy `(.*?)` up to the first position where one of the terminator
literals matches; `none` when no terminator occurs (the regex then fails at
this starting position). -/
def splitUntil (terms : List Chars) : Chars → Option Chars
  | [] => none
  | c :: cs =>
    if terms.any fun t => (stripPfx t (c :: cs)).isSome then some []
    else (splitUntil terms cs).map fun r => c :: r

/-- Anchored matcher for a labeled section
`LABEL\s*(.*?)(?:TERM₁|TERM₂|...)` with `re.DOTALL`
(src/feed_parser.py:117-149), returning the captured section text. -/
def matchSectionAt (label : Chars) (terms : List Chars) (s : Chars) :
    Option Chars :=
  match stripPfx label s with
  | none => none
  | some rest => splitUntil terms (rest.dropWhile isPySpace)

/-- Anchored matcher for one `<a[^>]*>([^<]+)</a>` hyperlink
(src/feed_parser.py:120 etc.), returning the inner text and the remainder
of the input after the match. -/
def matchLinkAt (s : Chars) : Option (Chars × Chars) :=
  match stripPfx "<a".toList s with
  | none => none
  | some r2 =>
    match r2.dropWhile (fun c => c != '>') with
    | '>' :: r3 =>
      let inner := r3.takeWhile fun c => c != '<'
      if inner = [] then none
      else
        match stripPfx "</a>".toList (r3.drop inner.length) with
        | some r4 => some (inner, r4)
        | none => none
    | _ => none

/-- `stripPfx` only succeeds by consuming exactly the pattern. -/
theorem stripPfx_length {p s r : Chars} (h : stripPfx p s = some r) :
    s.length = p.length + r.length := by
  induction p generalizing s with
  | nil => simp [stripPfx] at h; simp [← h]
  | cons a as ih =>
    match s with
    | [] => simp [stripPfx] at h
    | c :: cs =>
      simp only [stripPfx] at h
      split at h
      · have := ih h
        simp [List.length_cons, this]
        omega
      · exact absurd h (by simp)

/-- A successful hyperlink match consumes at least one character. -/
theorem matchLinkAt_rest_lt {s i r : Chars}
    (h : matchLinkAt s = some (i, r)) : r.length < s.length := by
  unfold matchLinkAt at h
  split at h
  · exact absurd h (by simp)
  · rename_i r2 h2
    have hs2 := stripPfx_length h2
    split at h
    · rename_i r3 h3
      have hdw : ('>' :: r3).length ≤ r2.length := by
        rw [← h3]; exact (List.dropWhile_sublist _).length_le
      simp only at h
      split at h
      · exact absurd h (by simp)
      · rename_i hne
        split at h
        · rename_i r4 h4
          have hs4 := stripPfx_length h4
          have hdr : (r3.drop
              (r3.takeWhile (fun c => c != '<')).length).length ≤ r3.length :=
            (List.drop_sublist _ _).length_le
          simp only [Option.some_inj, Prod.mk.injEq] at h
          obtain ⟨-, hr⟩ := h
          subst hr
          simp [String.length] at hs2 hs4
          simp [List.length_cons] at hdw
          omega
        · exact absurd h (by simp)
    · exact absurd h (by simp)

/-- One step of `re.findall` iteration: on a match, emit the capture and
continue after the match; otherwise advance one position.  The fuel is only
a structural-recursion bound: each step consumes at least one character
(`matchLinkAt_rest_lt`), so fuel `s.length` is never exhausted. -/
def findallLinksAux : Nat → Chars → List Chars
  | 0, _ => []
  | _ + 1, [] => []
  | fuel + 1, c :: cs =>
    match matchLinkAt (c :: cs) with
    | some (i, r) => i :: findallLinksAux fuel r
    | none => findallLinksAux fuel cs

/-- `re.findall(r'<a[^>]*>([^<]+)</a>', text)`: all non-overlapping
hyperlink inner texts, left to right. -/
def findallLinks (s : Chars) : List Chars := findallLinksAux s.length s

/-- The literal part of the tag-hyperlink pattern
`href="https://archiveofourown\.org/tags/([^"/]+)` (src/feed_parser.py:23). -/
def tagUrlLit : Chars := "href=\"https://archiveofourown.org/tags/".toList

/-- Anchored matcher for one tag hyperlink, returning the captured path
segment (`[^"/]+`, greedy) and the remainder after the match. -/
def matchTagAt (s : Chars) : Option (Chars × Chars) :=
  match stripPfx tagUrlLit s with
  | none => none
  | some r =>
    match r.takeWhile (fun c => c != '"' && c != '/') with
    | [] => none
    | d :: ds => some (d :: ds, r.drop (d :: ds).length)

/-- A successful tag-hyperlink match consumes at least one character. -/
theorem matchTagAt_rest_lt {s i r : Chars}
    (h : matchTagAt s = some (i, r)) : r.length < s.length := by
  unfold matchTagAt at h
  split at h
  · exact absurd h (by simp)
  · rename_i r1 h1
    have hs1 := stripPfx_length h1
    split at h
    · exact absurd h (by simp)
    · rename_i d ds h2
      simp only [Option.some_inj, Prod.mk.injEq] at h
      obtain ⟨-, hr⟩ := h
      subst hr
      have := (List.drop_sublist (d :: ds).length r1).length_le
      simp [tagUrlLit, String.length] at hs1
      omega

/-- `re.findall` iteration for the tag-URL pattern, with the same
structural fuel as `findallLinksAux` (each step consumes at least one
character, see `matchTagAt_rest_lt`). -/
def findallTagsAux : Nat → Chars → List Chars
  | 0, _ => []
  | _ + 1, [] => []
  | fuel + 1, c :: cs =>
    match matchTagAt (c :: cs) with
    | some (i, r) => i :: findallTagsAux fuel r
    | none => findallTagsAux fuel cs

/-- `re.findall` over the whole fragment for the tag-URL pattern
(src/feed_parser.py:24): all non-overlapping captures, left to right. -/
def findallTags (s : Chars) : List Chars := findallTagsAux s.length s

/-- The fuel in `findallTagsAux` is irrelevant as long as it dominates the
length of the remaining input. -/
theorem findallTagsAux_congr : ∀ (n m : Nat) (s : Chars),
    s.length ≤ n → s.length ≤ m → findallTagsAux n s = findallTagsAux m s := by
  intro n
  induction n with
  | zero =>
    intro m s hn _
    have : s = [] := List.length_eq_zero.mp (Nat.le_zero.mp hn)
    subst this
    cases m <;> rfl
  | succ n ih =>
    intro m s hn hm
    cases s with
    | nil => cases m <;> rfl
    | cons c cs =>
      cases m with
      | zero => simp at hm
      | succ m' =>
        simp only [List.length_cons, Nat.add_le_add_iff_right] at hn hm
        simp only [findallTagsAux]
        cases hmatch : matchTagAt (c :: cs) with
        | none => exact ih m' cs hn hm
        | some p =>
          obtain ⟨i, r⟩ := p
          have hr : r.length < cs.length + 1 := matchTagAt_rest_lt hmatch
          exact show i :: findallTagsAux n r = i :: findallTagsAux m' r by
            rw [ih m' r (by omega) (by omega)]

/-- Numeric value of a hexadecimal digit. -/
def hexVal (c : Char) : Option Nat :=
  if '0' ≤ c && c ≤ '9' then some (c.toNat - 48)
  else if 'A' ≤ c && c ≤ 'F' then some (c.toNat - 55)
  else if 'a' ≤ c && c ≤ 'f' then some (c.toNat - 87)
  else none

/-- `urllib.parse.unquote`: percent-decoding (single-byte model: each
`%XX` escape decodes to the character with code `XX`; malformed escapes are
left as-is, as Python does). -/
def unquoteCh : Chars → Chars
  | [] => []
  | '%' :: a :: b :: rest =>
    match hexVal a, hexVal b with
    | some x, some y => Char.ofNat (16 * x + y) :: unquoteCh rest
    | _, _ => '%' :: unquoteCh (a :: b :: rest)
  | c :: rest => c :: unquoteCh rest

/-- `FeedParser.extract_tag_names` (src/feed_parser.py:17-29): scan the
whole fragment for tag hyperlinks, percent-decode each captured path
segment, and collect the results (the Python `set` is modelled by this
list's membership). -/
def extract_tag_names (s : Chars) : List Chars :=
  (findallTags s).map unquoteCh

/-- The metadata dict built by `FeedParser._extract_metadata`
(src/feed_parser.py:81-151). -/
structure Metadata where
  words : Option Nat
  chapters : Option Chars
  language : Option Chars
  rating : Option Chars
  warnings : List Chars
  categories : List Chars
  characters : List Chars
  relationships : List Chars
  additional_tags : List Chars
deriving DecidableEq, Repr

/-- Terminators of the `Warnings:` section (src/feed_parser.py:117). -/
def warningsTerms : List Chars :=
  ["Categories:".toList, "Characters:".toList, "Relationships:".toList,
    "Additional Tags:".toList, "</li>".toList]

/-- Terminators of the `Categories:` section (src/feed_parser.py:124). -/
def categoriesTerms : List Chars :=
  ["Characters:".toList, "Relationships:".toList, "Additional Tags:".toList,
    "</li>".toList]

/-- Terminators of the `Characters:` section (src/feed_parser.py:131). -/
def charactersTerms : List Chars :=
  ["Relationships:".toList, "Additional Tags:".toList, "</li>".toList]

/-- Terminators of the `Relationships:` section (src/feed_parser.py:138). -/
def relationshipsTerms : List Chars :=
  ["Additional Tags:".toList, "</li>".toList]

/-- Terminators of the `Additional Tags:` section (src/feed_parser.py:145). -/
def additionalTagsTerms : List Chars :=
  ["</li>".toList, "</ul>".toList]

/-- `FeedParser._extract_metadata` (src/feed_parser.py:81-151): each field
starts from its default (`None` / `[]`) and is filled in when its regex
matches somewhere in the fragment. -/
def extractMetadata (s : Chars) : Metadata where
  words := searchFirst matchWordsAt s
  chapters := searchFirst matchChaptersAt s
  language := (searchFirst matchLanguageAt s).map pyStrip
  rating := searchFirst matchRatingAt s
  warnings :=
    ((searchFirst (matchSectionAt "Warnings:".toList warningsTerms) s).map
      findallLinks).getD []
  categories :=
    ((searchFirst (matchSectionAt "Categories:".toList categoriesTerms) s).map
      findallLinks).getD []
  characters :=
    ((searchFirst (matchSectionAt "Characters:".toList charactersTerms) s).map
      findallLinks).getD []
  relationships :=
    ((searchFirst
      (matchSectionAt "Relationships:".toList relationshipsTerms) s).map
      findallLinks).getD []
  additional_tags :=
    ((searchFirst
      (matchSectionAt "Additional Tags:".toList additionalTagsTerms) s).map
      findallLinks).getD []

/-- `FeedParser.construct_feed_url` (src/feed_parser.py:31-34). -/
def construct_feed_url (tag_id : Chars) : Chars :=
  "https://archiveofourown.org/tags/".toList ++ tag_id ++ "/feed.atom".toList

/-- A character allowed by `TAG_ID_PATTERN` (src/commands/track.py:15):
`[A-Za-z0-9_-]`. -/
def isTagChar (c : Char) : Bool := c.isAlphanum || c = '-' || c = '_'

/-- Python's `$` anchor (no `re.MULTILINE`), given that the preceding `.*`
cannot cross a newline: the remainder must be empty or a single final
newline. -/
def matchDollar (r : Chars) : Bool := r = [] || r = [ '\n']

/-- Tail `(\?.*)?$` of `AO3_FEED_PATTERN` (src/commands/track.py:13):
either the end of the URL, or a `?query` where `.*` runs to the first
newline and `$` must then close the string. -/
def matchEndPart (r : Chars) : Bool :=
  match r with
  | [] => true
  | '?' :: q => matchDollar (q.drop (q.takeWhile (fun c => c != '\n')).length)
  | _ => matchDollar r

/-- The optional `s` of `https?`: deterministic because the following
literal `://` cannot start with `s`. -/
def dropOptS : Chars → Chars
  | 's' :: rs => rs
  | r => r

/-- `AO3_FEED_PATTERN.match` (src/commands/track.py:13):
`^https?://archiveofourown\.org/tags/([^/]+)/feed\.atom(\?.*)?$`,
returning `group(1)`. -/
def matchFeedUrl (s : Chars) : Option Chars :=
  (stripPfx "http".toList s).bind fun r0 =>
    (stripPfx "://archiveofourown.org/tags/".toList (dropOptS r0)).bind
      fun r2 =>
        let cap := r2.takeWhile fun c => c != '/'
        if cap = [] then none
        else
          (stripPfx "/feed.atom".toList (r2.drop cap.length)).bind fun r3 =>
            if matchEndPart r3 then some cap else none

/-- `TAG_ID_PATTERN.match` (src/commands/track.py:15):
`^[A-Za-z0-9_-]{1,100}$` as a Boolean test (`validate_tag_id`). -/
def matchTagIdFull (s : Chars) : Bool :=
  let run := s.takeWhile isTagChar
  decide (1 ≤ run.length) && decide (run.length ≤ 100) &&
    matchDollar (s.drop run.length)

/-- `extract_tag_id` (src/commands/track.py:18-31): strip the input, try
the full feed-URL pattern, then the bare tag-id pattern. -/
def extract_tag_id (input : Chars) : Option Chars :=
  let s := pyStrip input
  match matchFeedUrl s with
  | some cap => some cap
  | none => if matchTagIdFull s then some s else none

/-! ## Helper lemmas -/

theorem stripPfx_append (p r : Chars) : stripPfx p (p ++ r) = some r := by
  induction p with
  | nil => rfl
  | cons a as ih => simp [stripPfx, ih]

theorem takeWhile_append_stop {p : Char → Bool} {t b : Chars} {c : Char}
    (ht : ∀ x ∈ t, p x = true) (hc : p c = false) :
    (t ++ c :: b).takeWhile p = t := by
  induction t with
  | nil => simp [List.takeWhile_cons, hc]
  | cons a as ih =>
    have ha : p a = true := ht a (by simp)
    simp only [List.cons_append, List.takeWhile_cons, ha]
    simp only [if_true]
    rw [ih fun x hx => ht x (by simp [hx])]

theorem dropWhile_append_stop {p : Char → Bool} {t b : Chars} {c : Char}
    (ht : ∀ x ∈ t, p x = true) (hc : p c = false) :
    (t ++ c :: b).dropWhile p = c :: b := by
  induction t with
  | nil => simp [List.dropWhile_cons, hc]
  | cons a as ih =>
    have ha : p a = true := ht a (by simp)
    simp only [List.cons_append, List.dropWhile_cons, ha]
    simp only [if_true]
    exact ih fun x hx => ht x (by simp [hx])

theorem searchFirst_eq_none {f : Chars → Option α} {s : Chars}
    (h : ∀ t, t <:+ s → f t = none) : searchFirst f s = none := by
  induction s with
  | nil => simpa [searchFirst] using h [] (by simp)
  | cons c cs ih =>
    simp only [searchFirst, h (c :: cs) (by simp), Option.orElse]
    exact ih fun t ht => h t (ht.trans (List.suffix_cons c cs))

theorem searchFirst_of_self {f : Chars → Option α} {s : Chars} {a : α}
    (h : f s = some a) : searchFirst f s = some a := by
  cases s with
  | nil => simpa [searchFirst] using h
  | cons c cs => simp [searchFirst, h, Option.orElse]

theorem containsSub_false_stripPfx {pat s : Chars}
    (h : containsSub pat s = false) :
    ∀ t, t <:+ s → stripPfx pat t = none := by
  induction s with
  | nil =>
    intro t ht
    rw [List.suffix_nil.mp ht]
    simp only [containsSub, List.isEmpty_iff] at h
    match pat, h with
    | p :: ps, _ => rfl
  | cons c cs ih =>
    simp only [containsSub, Bool.or_eq_false_iff] at h
    intro t ht
    rcases List.suffix_cons_iff.mp ht with rfl | ht'
    · exact Option.not_isSome_iff_eq_none.mp (by simp [h.1])
    · exact ih h.2 t ht'

/-! ## C4: exclusion filter -/

/-- C4: `filter_entries_by_tags` keeps an entry iff the case-folded tag
names of the entry avoid the case-folded excluded set, and an empty
exclusion set is the identity. -/
theorem filter_entries_by_tags_spec (entries : List Entry)
    (excluded : List Chars) (e : Entry) :
    (e ∈ filter_entries_by_tags entries excluded ↔
      e ∈ entries ∧ ∀ t ∈ e.tag_names, lowerCh t ∉ excluded.map lowerCh) ∧
    filter_entries_by_tags entries [] = entries := by
  constructor
  · by_cases hx : excluded = []
    · subst hx
      simp [filter_entries_by_tags]
    · simp only [filter_entries_by_tags, if_neg hx]
      rw [List.mem_filter]
      simp [List.all_eq_true]
  · simp [filter_entries_by_tags]

/-! ## C5: delivery deduplication -/

/-- C5: recording a delivery makes `is_entry_notified` true; recording an
already-recorded pair is a no-op (no error, nothing changes); and starting
from a table respecting the unique constraint, recording twice leaves
exactly one row for the pair. -/
theorem record_notification_spec (db : NotifDb) (sid : Nat) (eid : Chars) :
    is_entry_notified (record_notification db sid eid) sid eid = true ∧
    record_notification (record_notification db sid eid) sid eid =
      record_notification db sid eid ∧
    (db.count (sid, eid) ≤ 1 →
      (record_notification (record_notification db sid eid) sid
        eid).count (sid, eid) = 1) := by
  have hmem : (sid, eid) ∈ record_notification db sid eid := by
    by_cases h : (sid, eid) ∈ db <;>
      simp [record_notification, List.contains, List.elem_eq_mem, h]
  have hnotif : is_entry_notified (record_notification db sid eid) sid
      eid = true := by
    simpa [is_entry_notified, List.contains, List.elem_eq_mem] using hmem
  have hnoop : record_notification (record_notification db sid eid) sid eid =
      record_notification db sid eid := by
    have hc : (record_notification db sid eid).contains (sid, eid) = true :=
      hnotif
    generalize record_notification db sid eid = X at hc ⊢
    simp only [record_notification, hc, if_true]
  refine ⟨hnotif, hnoop, fun hcount => ?_⟩
  rw [hnoop]
  by_cases h : (sid, eid) ∈ db
  · have h1 : 1 ≤ db.count (sid, eid) := List.one_le_count_iff.mpr h
    simp [record_notification, List.contains, List.elem_eq_mem, h]
    omega
  · have h0 : db.count (sid, eid) = 0 := List.count_eq_zero.mpr h
    simp [record_notification, List.contains, List.elem_eq_mem, h, List.count_append, h0]

/-- Witness for C5 at the spec's example `(subscription=5, entry="abc")`
starting from an empty table. -/
theorem record_notification_spec_witness :
    ([] : NotifDb).count (5, "abc".toList) ≤ 1 ∧
    (record_notification (record_notification [] 5 "abc".toList) 5
      "abc".toList).count (5, "abc".toList) = 1 ∧
    is_entry_notified (record_notification [] 5 "abc".toList) 5
      "abc".toList = true :=
  ⟨by decide,
    (record_notification_spec [] 5 "abc".toList).2.2 (by decide),
    (record_notification_spec [] 5 "abc".toList).1⟩

/-! ## C3: the orchestrator always advances the marker -/

/-- C3: on every successful per-feed iteration with a non-empty entry list,
the feed's marker is set to the id of the current newest entry (the head of
the newest-first order) and the poll timestamp is recorded, on every branch
— no new entries, no subscribers, or the full fan-out. -/
theorem pollFeedOnce_updates_marker (sendOk : Nat → Chars → Bool) (now : Nat)
    (entries : List Entry) (subs : List Subscription) (marker : Option Chars)
    (db : NotifDb) (h : entries ≠ []) :
    ∃ newest : Entry,
      (sortDesc entries).head? = some newest ∧
      (pollFeedOnce sendOk now entries subs marker db).last_entry_id =
        some newest.id ∧
      (pollFeedOnce sendOk now entries subs marker db).last_updated =
        some now := by
  have hperm : List.Perm (sortDesc entries) entries :=
    List.mergeSort_perm entries entryLe
  have hne : sortDesc entries ≠ [] := fun hcontra =>
    h (hcontra ▸ hperm : List.Perm ([] : List Entry) entries).symm.eq_nil
  obtain ⟨e, es, hse⟩ := List.exists_cons_of_ne_nil hne
  have key :
      (pollFeedOnce sendOk now entries subs marker db).last_entry_id =
        (sortDesc entries).head?.map Entry.id ∧
      (pollFeedOnce sendOk now entries subs marker db).last_updated =
        some now := by
    unfold pollFeedOnce
    rw [if_neg h]
    dsimp only
    split
    · exact ⟨rfl, rfl⟩
    · split
      · exact ⟨rfl, rfl⟩
      · exact ⟨rfl, rfl⟩
  exact ⟨e, by rw [hse]; rfl, by rw [key.1, hse]; rfl, key.2⟩

/-- Witness for C3 at a concrete feed state: two entries, one subscriber,
no exclusions, an always-successful notifier. -/
theorem pollFeedOnce_updates_marker_witness :
    ([⟨"E2".toList, some 2, none, []⟩, ⟨"E3".toList, some 3, none, []⟩] :
        List Entry) ≠ [] ∧
    ∃ newest : Entry,
      (sortDesc [⟨"E2".toList, some 2, none, []⟩,
        ⟨"E3".toList, some 3, none, []⟩]).head? = some newest ∧
      (pollFeedOnce (fun _ _ => true) 7
        [⟨"E2".toList, some 2, none, []⟩, ⟨"E3".toList, some 3, none, []⟩]
        [⟨1, 10, []⟩] none []).last_entry_id = some newest.id ∧
      (pollFeedOnce (fun _ _ => true) 7
        [⟨"E2".toList, some 2, none, []⟩, ⟨"E3".toList, some 3, none, []⟩]
        [⟨1, 10, []⟩] none []).last_updated = some 7 :=
  ⟨by decide,
    pollFeedOnce_updates_marker (fun _ _ => true) 7
      [⟨"E2".toList, some 2, none, []⟩, ⟨"E3".toList, some 3, none, []⟩]
      [⟨1, 10, []⟩] none [] (by decide)⟩

/-! ## C1: marker found at index k -/

/-- C1: when the (truthy) marker equals the id of the entry at index `k`
and no earlier entry carries that id (i.e. the id search finds it at `k`),
`get_new_entries` returns exactly the prefix of the first `k` entries, in
order. -/
theorem get_new_entries_marker_found (entries : List Entry) (lid : Chars)
    (k : Nat) (hk : k < entries.length)
    (hid : (entries.get ⟨k, hk⟩).id = lid)
    (hfirst : ∀ e ∈ entries.take k, e.id ≠ lid)
    (hlid : lid ≠ []) :
    get_new_entries entries (some lid) = entries.take k := by
  have hfind : entries.findIdx? (fun e => e.id == lid) = some k := by
    rw [List.findIdx?_eq_some_iff_getElem]
    refine ⟨hk, by simpa using hid, fun j hj => ?_⟩
    have hjlen : j < entries.length := Nat.lt_trans hj hk
    have hmem : entries.get ⟨j, hjlen⟩ ∈ entries.take k := by
      rw [List.get_eq_getElem, List.getElem_take' entries hjlen hj]
      exact List.getElem_mem _
    simpa using hfirst _ hmem
  simp [get_new_entries, hlid, hfind]

/-- Witness for C1: marker `"b"` sits at index 1 of `[a, b, c]`; the new
entries are exactly `[a]`. -/
theorem get_new_entries_marker_found_witness :
    1 < ([⟨"a".toList, some 3, none, []⟩, ⟨"b".toList, some 2, none, []⟩,
        ⟨"c".toList, some 1, none, []⟩] : List Entry).length ∧
    get_new_entries
      [⟨"a".toList, some 3, none, []⟩, ⟨"b".toList, some 2, none, []⟩,
        ⟨"c".toList, some 1, none, []⟩] (some "b".toList) =
      [⟨"a".toList, some 3, none, []⟩] :=
  ⟨by decide,
    get_new_entries_marker_found
      [⟨"a".toList, some 3, none, []⟩, ⟨"b".toList, some 2, none, []⟩,
        ⟨"c".toList, some 1, none, []⟩]
      "b".toList 1 (by decide) (by decide) (by decide) (by decide)⟩

/-! ## C2: marker absent or not found -/

/-- C2: on an already newest-first-ordered list, a missing marker (first
poll) or a marker id that occurs nowhere in the list makes
`get_new_entries` return the full list unchanged, in input order. -/
theorem get_new_entries_marker_absent (entries : List Entry)
    (marker : Option Chars)
    (hs : entries.Pairwise (fun a b => entryLe a b = true))
    (habs : marker = none ∨
      ∃ lid, marker = some lid ∧ ∀ e ∈ entries, e.id ≠ lid) :
    get_new_entries entries marker = entries := by
  have hsort : sortDesc entries = entries := List.mergeSort_of_sorted hs
  rcases habs with rfl | ⟨lid, rfl, hnot⟩
  · simp [get_new_entries, hsort]
  · by_cases hl : lid = []
    · simp [get_new_entries, hl, hsort]
    · have hfind : entries.findIdx? (fun e => e.id == lid) = none := by
        rw [List.findIdx?_eq_none_iff]
        intro e he
        simpa using hnot e he
      simp [get_new_entries, hl, hfind, hsort]

/-- Witness for C2: an ordered three-entry list with a marker that does not
occur returns the whole list. -/
theorem get_new_entries_marker_absent_witness :
    get_new_entries
      [⟨"a".toList, some 3, none, []⟩, ⟨"b".toList, some 2, none, []⟩,
        ⟨"c".toList, some 1, none, []⟩] (some "zz".toList) =
      [⟨"a".toList, some 3, none, []⟩, ⟨"b".toList, some 2, none, []⟩,
        ⟨"c".toList, some 1, none, []⟩] :=
  get_new_entries_marker_absent
    [⟨"a".toList, some 3, none, []⟩, ⟨"b".toList, some 2, none, []⟩,
      ⟨"c".toList, some 1, none, []⟩]
    (some "zz".toList) (by decide)
    (Or.inr ⟨"zz".toList, rfl, by decide⟩)

/-! ## C6: ordering is a stable descending sort on the fallback key -/

theorem keyLe_trans {a b c : Option Nat} (h1 : keyLe a b = true)
    (h2 : keyLe b c = true) : keyLe a c = true := by
  cases a <;> cases b <;> cases c <;> simp [keyLe] at * <;> omega

theorem keyLe_total (a b : Option Nat) : keyLe a b || keyLe b a := by
  cases a <;> cases b <;> simp [keyLe] <;> omega

theorem entryLe_trans (a b c : Entry) (h1 : entryLe a b) (h2 : entryLe b c) :
    entryLe a c :=
  keyLe_trans h2 h1

theorem entryLe_total (a b : Entry) : entryLe a b || entryLe b a := by
  simpa [entryLe] using keyLe_total (sortKey b) (sortKey a)

/-- C6: the ordering step is a descending sort on the key
`updated ?? published ?? sentinel` — the output is a permutation of the
input, pairwise ordered newest-first — and it is stable: for every key
value, the entries carrying that key appear in the output exactly as they
appear in the input; the sentinel key sits strictly below every real
timestamp. -/
theorem sortDesc_spec (l : List Entry) :
    List.Perm (sortDesc l) l ∧
    (sortDesc l).Pairwise (fun a b => entryLe a b = true) ∧
    (∀ v : Option Nat,
      (sortDesc l).filter (fun e => sortKey e == v) =
        l.filter (fun e => sortKey e == v)) ∧
    (∀ t : Nat, keyLe none (some t) = true ∧ keyLe (some t) none = false) := by
  refine ⟨List.mergeSort_perm l entryLe, ?_, ?_, fun t => ⟨rfl, rfl⟩⟩
  · exact List.sorted_mergeSort entryLe_trans entryLe_total l
  · intro v
    have hperm : List.Perm (sortDesc l) l := List.mergeSort_perm l entryLe
    set p : Entry → Bool := fun e => sortKey e == v with hp
    have hpair : (l.filter p).Pairwise (fun a b => entryLe a b = true) := by
      apply List.pairwise_of_forall_mem_list
      intro a ha b hb
      have hav : sortKey a = v := by
        simpa [hp] using (List.mem_filter.mp ha).2
      have hbv : sortKey b = v := by
        simpa [hp] using (List.mem_filter.mp hb).2
      have : keyLe v v = true := by cases v <;> simp [keyLe]
      simpa [entryLe, hav, hbv] using this
    have hsub : List.Sublist (l.filter p) (sortDesc l) :=
      List.sublist_mergeSort entryLe_trans entryLe_total hpair
        (List.filter_sublist l)
    have hsub2 : List.Sublist (l.filter p) ((sortDesc l).filter p) := by
      have h1 := hsub.filter p
      rwa [List.filter_eq_self.mpr
        (fun a ha => (List.mem_filter.mp ha).2)] at h1
    have hlen : ((sortDesc l).filter p).length = (l.filter p).length :=
      (hperm.filter p).length_eq
    exact (hsub2.eq_of_length hlen.symm).symm

/-! ## C10: feed-URL construction and tag-id extraction are inverse -/

theorem dropWhile_eq_self_of_head {p : Char → Bool} {l : Chars} {c : Char}
    (hh : l.head? = some c) (hc : p c = false) : l.dropWhile p = l := by
  cases l with
  | nil => rfl
  | cons a as =>
    simp only [List.head?_cons, Option.some_inj] at hh
    subst hh
    simp [List.dropWhile_cons, hc]

theorem pyStrip_eq_self {l : Chars} {c d : Char}
    (h1 : l.head? = some c) (hc : isPySpace c = false)
    (h2 : l.getLast? = some d) (hd : isPySpace d = false) :
    pyStrip l = l := by
  unfold pyStrip
  rw [dropWhile_eq_self_of_head h1 hc]
  rw [dropWhile_eq_self_of_head (by rw [List.head?_reverse]; exact h2) hd]
  exact List.reverse_reverse l

/-- C10: for every tag identifier of the valid shape (1-100 characters,
each alphanumeric, hyphen or underscore), extracting the tag id back out of
the constructed feed URL is the identity. -/
theorem extract_tag_id_construct_feed_url (t : Chars)
    (h1 : 1 ≤ t.length) (h2 : t.length ≤ 100)
    (h3 : ∀ c ∈ t, isTagChar c = true) :
    extract_tag_id (construct_feed_url t) = some t := by
  have hne : t ≠ [] := by
    intro hcontra; subst hcontra; simp at h1
  have hnos : ∀ c ∈ t, (c != '/') = true := by
    intro c hc
    simp only [bne_iff_ne, ne_eq]
    intro hcontra
    subst hcontra
    exact absurd (h3 '/' hc) (by decide)
  have hurl : construct_feed_url t =
      "https://archiveofourown.org/tags/".toList ++
        (t ++ "/feed.atom".toList) := by
    unfold construct_feed_url
    rw [List.append_assoc]
  have hstrip : pyStrip (construct_feed_url t) = construct_feed_url t := by
    apply pyStrip_eq_self (c := 'h') (d := 'm')
    · rw [hurl]; rfl
    · decide
    · rw [hurl]
      rw [List.getLast?_append, List.getLast?_append]
      rfl
    · decide
  have hmf : matchFeedUrl (construct_feed_url t) = some t := by
    rw [hurl]
    unfold matchFeedUrl
    rw [show "https://archiveofourown.org/tags/".toList ++
        (t ++ "/feed.atom".toList) =
        "http".toList ++ ("s://archiveofourown.org/tags/".toList ++
          (t ++ "/feed.atom".toList)) from by
      rw [show "https://archiveofourown.org/tags/".toList =
        "http".toList ++ "s://archiveofourown.org/tags/".toList by decide]
      rw [List.append_assoc]]
    rw [stripPfx_append, Option.some_bind]
    rw [show dropOptS ("s://archiveofourown.org/tags/".toList ++
        (t ++ "/feed.atom".toList)) =
        "://archiveofourown.org/tags/".toList ++
          (t ++ "/feed.atom".toList) from rfl]
    rw [stripPfx_append, Option.some_bind]
    have hcap : (t ++ "/feed.atom".toList).takeWhile (fun c => c != '/') =
        t := by
      rw [show "/feed.atom".toList = '/' :: "feed.atom".toList from rfl]
      exact takeWhile_append_stop hnos (by decide)
    simp only [hcap, if_neg hne]
    rw [List.drop_left]
    rw [show stripPfx "/feed.atom".toList "/feed.atom".toList = some []
      from by decide]
    rw [Option.some_bind]
    rfl
  unfold extract_tag_id
  rw [hstrip]
  simp only [hmf]

/-- Witness for C10 at the concrete tag id `Harry_Potter-2`. -/
theorem extract_tag_id_construct_feed_url_witness :
    1 ≤ "Harry_Potter-2".toList.length ∧
    "Harry_Potter-2".toList.length ≤ 100 ∧
    extract_tag_id (construct_feed_url "Harry_Potter-2".toList) =
      some "Harry_Potter-2".toList :=
  ⟨by decide, by decide,
    extract_tag_id_construct_feed_url "Harry_Potter-2".toList
      (by decide) (by decide) (by decide)⟩

/-! ## C7: the metadata extractor is total; absent labels yield defaults -/

theorem matchWordsAt_eq_none {s : Chars}
    (h : stripPfx "Words:".toList s = none) : matchWordsAt s = none := by
  simp only [matchWordsAt, h]

theorem matchChaptersAt_eq_none {s : Chars}
    (h : stripPfx "Chapters:".toList s = none) : matchChaptersAt s = none := by
  simp only [matchChaptersAt, h]

theorem matchLanguageAt_eq_none {s : Chars}
    (h : stripPfx "Language:".toList s = none) :
    matchLanguageAt s = none := by
  simp only [matchLanguageAt, h]

theorem matchRatingAt_eq_none {s : Chars}
    (h : stripPfx "Rating:".toList s = none) : matchRatingAt s = none := by
  simp only [matchRatingAt, h]

theorem matchSectionAt_eq_none {label : Chars} {terms : List Chars}
    {s : Chars} (h : stripPfx label s = none) :
    matchSectionAt label terms s = none := by
  simp only [matchSectionAt, h]

theorem searchFirst_matcher_none {f : Chars → Option α} {label s : Chars}
    (hf : ∀ t, stripPfx label t = none → f t = none)
    (h : containsSub label s = false) : searchFirst f s = none :=
  searchFirst_eq_none fun t ht => hf t (containsSub_false_stripPfx h t ht)

/-- C7: the metadata extractor is a total function of arbitrary text, and
every field whose label does not occur in the fragment keeps its default —
an absent optional for `words`, `chapters`, `language`, `rating`, and an
empty sequence for the five list-valued sections — independently of what
the rest of the fragment contains. -/
theorem extractMetadata_total_defaults (s : Chars) :
    (containsSub "Words:".toList s = false →
      (extractMetadata s).words = none) ∧
    (containsSub "Chapters:".toList s = false →
      (extractMetadata s).chapters = none) ∧
    (containsSub "Language:".toList s = false →
      (extractMetadata s).language = none) ∧
    (containsSub "Rating:".toList s = false →
      (extractMetadata s).rating = none) ∧
    (containsSub "Warnings:".toList s = false →
      (extractMetadata s).warnings = []) ∧
    (containsSub "Categories:".toList s = false →
      (extractMetadata s).categories = []) ∧
    (containsSub "Characters:".toList s = false →
      (extractMetadata s).characters = []) ∧
    (containsSub "Relationships:".toList s = false →
      (extractMetadata s).relationships = []) ∧
    (containsSub "Additional Tags:".toList s = false →
      (extractMetadata s).additional_tags = []) := by
  refine ⟨fun h => ?_, fun h => ?_, fun h => ?_, fun h => ?_, fun h => ?_,
    fun h => ?_, fun h => ?_, fun h => ?_, fun h => ?_⟩
  · exact searchFirst_matcher_none
      (fun t ht => matchWordsAt_eq_none ht) h
  · exact searchFirst_matcher_none
      (fun t ht => matchChaptersAt_eq_none ht) h
  · show (searchFirst matchLanguageAt s).map pyStrip = none
    rw [searchFirst_matcher_none (fun t ht => matchLanguageAt_eq_none ht) h]
    rfl
  · exact searchFirst_matcher_none
      (fun t ht => matchRatingAt_eq_none ht) h
  · show ((searchFirst (matchSectionAt "Warnings:".toList warningsTerms)
        s).map findallLinks).getD [] = []
    rw [searchFirst_matcher_none (fun t ht => matchSectionAt_eq_none ht) h]
    rfl
  · show ((searchFirst (matchSectionAt "Categories:".toList categoriesTerms)
        s).map findallLinks).getD [] = []
    rw [searchFirst_matcher_none (fun t ht => matchSectionAt_eq_none ht) h]
    rfl
  · show ((searchFirst (matchSectionAt "Characters:".toList charactersTerms)
        s).map findallLinks).getD [] = []
    rw [searchFirst_matcher_none (fun t ht => matchSectionAt_eq_none ht) h]
    rfl
  · show ((searchFirst
        (matchSectionAt "Relationships:".toList relationshipsTerms)
        s).map findallLinks).getD [] = []
    rw [searchFirst_matcher_none (fun t ht => matchSectionAt_eq_none ht) h]
    rfl
  · show ((searchFirst
        (matchSectionAt "Additional Tags:".toList additionalTagsTerms)
        s).map findallLinks).getD [] = []
    rw [searchFirst_matcher_none (fun t ht => matchSectionAt_eq_none ht) h]
    rfl

/-- Witness for C7: a fragment with no `Warnings:` label gets an empty
warnings sequence while the labels that are present are still extracted. -/
theorem extractMetadata_total_defaults_witness :
    containsSub "Warnings:".toList
      "Words: 1234 Chapters: 3/3 Additional Tags: <a>Fluff</a></li>".toList =
      false ∧
    (extractMetadata
      "Words: 1234 Chapters: 3/3 Additional Tags: <a>Fluff</a></li>".toList
      ).warnings = [] ∧
    (extractMetadata
      "Words: 1234 Chapters: 3/3 Additional Tags: <a>Fluff</a></li>".toList
      ).words = some 1234 ∧
    (extractMetadata
      "Words: 1234 Chapters: 3/3 Additional Tags: <a>Fluff</a></li>".toList
      ).additional_tags = ["Fluff".toList] :=
  ⟨by decide,
    (extractMetadata_total_defaults
      "Words: 1234 Chapters: 3/3 Additional Tags: <a>Fluff</a></li>".toList
      ).2.2.2.2.1 (by decide),
    by decide, by decide⟩

/-! ## C8: tag-name extraction scans the whole fragment -/

theorem findallTags_cons_of_none {c : Char} {cs : Chars}
    (h : matchTagAt (c :: cs) = none) :
    findallTags (c :: cs) = findallTags cs := by
  simp only [findallTags, List.length_cons, findallTagsAux, h]

theorem findallTags_match {s i r : Chars} (h : matchTagAt s = some (i, r)) :
    findallTags s = i :: findallTags r := by
  cases s with
  | nil =>
    rw [show matchTagAt [] = none from rfl] at h
    exact absurd h (by simp)
  | cons c cs =>
    have hr : r.length ≤ cs.length :=
      Nat.lt_succ_iff.mp (by simpa using matchTagAt_rest_lt h)
    simp only [findallTags, List.length_cons, findallTagsAux, h]
    rw [findallTagsAux_congr cs.length r.length r hr (Nat.le_refl _)]

theorem findallTags_append_skip {pre rest : Chars}
    (h : ∀ p ∈ pre.tails, p ≠ [] → matchTagAt (p ++ rest) = none) :
    findallTags (pre ++ rest) = findallTags rest := by
  induction pre with
  | nil => rfl
  | cons c cs ih =>
    have h0 : matchTagAt (c :: (cs ++ rest)) = none :=
      h (c :: cs) ((List.mem_tails _ _).mpr (List.suffix_refl _)) (by simp)
    rw [List.cons_append, findallTags_cons_of_none h0]
    exact ih fun p hp hne =>
      h p ((List.mem_tails _ _).mpr
        (((List.mem_tails _ _).mp hp).trans (List.suffix_cons c cs))) hne

theorem matchTagAt_lit {tag suf : Chars} (hne : tag ≠ [])
    (hchars : ∀ c ∈ tag, (c != '"' && c != '/') = true) :
    matchTagAt (tagUrlLit ++ (tag ++ '"' :: suf)) =
      some (tag, '"' :: suf) := by
  unfold matchTagAt
  rw [stripPfx_append]
  have hcap : (tag ++ '"' :: suf).takeWhile (fun c => c != '"' && c != '/') =
      tag := takeWhile_append_stop hchars (by decide)
  obtain ⟨d, ds, rfl⟩ := List.exists_cons_of_ne_nil hne
  simp only [hcap]
  rw [List.drop_left]

/-- C8: tag-name extraction scans the entire fragment: every hyperlink
whose target matches the tag-URL shape contributes its percent-decoded path
segment to the result, wherever it sits in the fragment (in particular
outside the labeled metadata sections), provided no earlier tag-URL match
overlaps it. -/
theorem extract_tag_names_finds_anywhere (pre tag suf : Chars)
    (hne : tag ≠ [])
    (hchars : ∀ c ∈ tag, c ≠ '"' ∧ c ≠ '/')
    (hpre : ∀ p ∈ pre.tails, p ≠ [] →
      matchTagAt (p ++ (tagUrlLit ++ (tag ++ '"' :: suf))) = none) :
    unquoteCh tag ∈
      extract_tag_names (pre ++ (tagUrlLit ++ (tag ++ '"' :: suf))) := by
  have hchars' : ∀ c ∈ tag, (c != '"' && c != '/') = true := by
    intro c hc
    obtain ⟨h1, h2⟩ := hchars c hc
    simp [h1, h2]
  unfold extract_tag_names
  rw [findallTags_append_skip hpre]
  rw [findallTags_match (matchTagAt_lit hne hchars')]
  simp

/-- Witness for C8: a percent-encoded tag hyperlink sitting after a leading
fandom mention (outside any labeled section) is found, percent-decoded and
case-preserved. -/
theorem extract_tag_names_finds_anywhere_witness :
    "Harry%20Potter".toList ≠ [] ∧
    unquoteCh "Harry%20Potter".toList ∈
      extract_tag_names ("<p>Fandom stuff ".toList ++
        (tagUrlLit ++ ("Harry%20Potter".toList ++ '"' :: ">HP</a>".toList))) ∧
    unquoteCh "Harry%20Potter".toList = "Harry Potter".toList :=
  ⟨by decide,
    extract_tag_names_finds_anywhere "<p>Fandom stuff ".toList
      "Harry%20Potter".toList ">HP</a>".toList (by decide)
      (by decide) (by decide),
    by decide⟩

/-! ## C9: rating extraction requires the hyperlink wrapper -/

theorem stripPfx_suffix {p s r : Chars} (h : stripPfx p s = some r) :
    r <:+ s := by
  induction p generalizing s with
  | nil =>
    simp only [stripPfx, Option.some_inj] at h
    exact h ▸ List.suffix_refl s
  | cons a as ih =>
    match s with
    | [] => exact absurd h (by simp [stripPfx])
    | c :: cs =>
      simp only [stripPfx] at h
      split at h
      · exact (ih h).trans (List.suffix_cons c cs)
      · exact absurd h (by simp)

theorem stripPfx_head_mem {p : Char} {ps w r : Chars}
    (h : stripPfx (p :: ps) w = some r) : p ∈ w := by
  match w with
  | [] => exact absurd h (by simp [stripPfx])
  | c :: cs =>
    simp only [stripPfx] at h
    split at h
    · simp_all
    · exact absurd h (by simp)

/-- Without a `<` anywhere in the input there is no hyperlink, so the
rating regex cannot match at this position. -/
theorem matchRatingAt_eq_none_of_no_lt {u : Chars} (h : '<' ∉ u) :
    matchRatingAt u = none := by
  cases hstrip : stripPfx "Rating:".toList u with
  | none => exact matchRatingAt_eq_none hstrip
  | some rest =>
    have hsub : rest <:+ u := stripPfx_suffix hstrip
    have hstrip2 : stripPfx "<a".toList (rest.dropWhile isPySpace) = none := by
      cases h2 : stripPfx "<a".toList (rest.dropWhile isPySpace) with
      | none => rfl
      | some r2 =>
        exfalso
        have hlt : '<' ∈ rest.dropWhile isPySpace := stripPfx_head_mem h2
        exact h (hsub.sublist.subset ((List.dropWhile_sublist _).subset hlt))
    simp only [matchRatingAt, hstrip, hstrip2]

/-- Counterexample to C9 as stated: a fragment in which `Rating:` is
followed by plain, non-hyperlinked text yields no rating at all, not that
text. -/
theorem rating_plain_text_counterexample :
    (extractMetadata "Rating: General Audiences".toList).rating = none ∧
    (extractMetadata "Rating: General Audiences".toList).rating ≠
      some "General Audiences".toList := by
  constructor
  · decide
  · decide

/-- C9 (amended): when `Rating:` is followed (after whitespace) by a
hyperlink, the extractor captures the hyperlink's inner text as the rating;
when the fragment contains no `<` at all after `Rating: `, the rating is
absent — plain text after the label is never captured. -/
theorem extractMetadata_rating_amended (attrs inner t : Chars) :
    (inner ≠ [] → (∀ c ∈ inner, c ≠ '<') → (∀ c ∈ attrs, c ≠ '>') →
      (extractMetadata ("Rating:".toList ++ (' ' :: ("<a".toList ++ (attrs ++
        ('>' :: (inner ++ ("</a>".toList ++ t)))))))).rating = some inner) ∧
    ((∀ c ∈ t, c ≠ '<') →
      (extractMetadata ("Rating: ".toList ++ t)).rating = none) := by
  constructor
  · intro hne hin hat
    have hin' : ∀ c ∈ inner, (c != '<') = true := by
      intro c hc
      simpa using hin c hc
    have hat' : ∀ c ∈ attrs, (c != '>') = true := by
      intro c hc
      simpa using hat c hc
    show searchFirst matchRatingAt _ = some inner
    apply searchFirst_of_self
    unfold matchRatingAt
    rw [stripPfx_append]
    have hdw : (' ' :: ("<a".toList ++ (attrs ++
        ('>' :: (inner ++ ("</a>".toList ++ t)))))).dropWhile isPySpace =
        "<a".toList ++ (attrs ++ ('>' :: (inner ++ ("</a>".toList ++ t)))) :=
      dropWhile_append_stop (t := [' ']) (by decide) (by decide)
    simp only [hdw]
    rw [stripPfx_append]
    have hdw2 : (attrs ++
        ('>' :: (inner ++ ("</a>".toList ++ t)))).dropWhile
          (fun c => c != '>') =
        '>' :: (inner ++ ("</a>".toList ++ t)) :=
      dropWhile_append_stop hat' (by decide)
    simp only [hdw2]
    have htw : (inner ++ ("</a>".toList ++ t)).takeWhile
        (fun c => c != '<') = inner := by
      have : inner ++ ("</a>".toList ++ t) =
          inner ++ '<' :: ("/a>".toList ++ t) := rfl
      rw [this]
      exact takeWhile_append_stop hin' (by decide)
    simp only [htw, if_neg hne]
    rw [show (inner ++ ("</a>".toList ++ t)).drop inner.length =
      "</a>".toList ++ t from List.drop_left _ _]
    rw [stripPfx_append]
  · intro ht
    show searchFirst matchRatingAt _ = none
    apply searchFirst_eq_none
    intro u hu
    apply matchRatingAt_eq_none_of_no_lt
    intro hmem
    have : '<' ∈ "Rating: ".toList ++ t := hu.sublist.subset hmem
    rcases List.mem_append.mp this with hc | hc
    · exact absurd hc (by decide)
    · exact absurd rfl (ht '<' hc)

/-- Witness for the amended C9: a hyperlink-wrapped rating is captured; the
same text without the hyperlink yields no rating. -/
theorem extractMetadata_rating_amended_witness :
    (extractMetadata ("Rating:".toList ++ (' ' :: ("<a".toList ++
      (" class=z".toList ++ ('>' :: ("Teen And Up".toList ++
        ("</a>".toList ++ "!".toList)))))))).rating =
      some "Teen And Up".toList ∧
    (extractMetadata ("Rating: ".toList ++
      "General Audiences".toList)).rating = none :=
  ⟨(extractMetadata_rating_amended " class=z".toList "Teen And Up".toList
      "!".toList).1 (by decide) (by decide) (by decide),
    (extractMetadata_rating_amended [] [] "General Audiences".toList).2
      (by decide)⟩
